import Mathlib

/-!
Shallow embedding of the 2048 (3×3 variant) MCTS / Expectimax repository.

The embedding follows the Python sources:
  - `game2048.py`   : board representation, merge / move resolution,
                      legal actions, terminal test, successor with random spawn;
  - `expectimax.py` : heuristic evaluation function and recursive expectimax;
  - `mcts.py`       : search-tree nodes, UCB child selection, rollout,
                      per-iteration tree update then final move choice.

Randomness (`random.choice`, `random.random`) is made explicit: every random
draw becomes an extra argument (an index into the candidate list together with
a boolean for the 2-versus-4 tile choice).  Python floats are modelled by `ℚ`
wherever the program only does field arithmetic on them, and by `ℝ` where it
takes `sqrt` / `log` (the UCB weights).  Boards in the program are always
square (3×3); list indexing `b[r][c]` is modelled with `getD` defaults, which
agrees with the program on every square board.
-/

namespace Game2048

/-- The four directional moves, in the program's enumeration order. -/
inductive Move where
  | up
  | down
  | left
  | right
deriving DecidableEq, Repr

/-- A board is a list of rows of natural numbers (`0` = empty cell). -/
abbrev Board := List (List ℕ)

/-- `b[r][c]` with default `0` outside the (always square) board. -/
def cell (b : Board) (r c : ℕ) : ℕ := (b.getD r []).getD c 0

/-- `new_board[i][j] = v`. -/
def setCell (b : Board) (i j v : ℕ) : Board :=
  b.set i ((b.getD i []).set j v)

/-- `[(i, j) for i in range(size) for j in range(size) if board[i][j] == 0]`
with `size = len(board)`. -/
def emptyCells (b : Board) : List (ℕ × ℕ) :=
  ((List.range b.length).map (fun i =>
    (List.range b.length).filterMap (fun j =>
      if cell b i j = 0 then some (i, j) else none))).flatten

/-- The merging scan of `merge` in `game2048.py`, applied after zeros are
dropped: while scanning left to right, two equal adjacent tiles become one
doubled tile (the doubled value is also added to the score gain) and the scan
advances two positions, otherwise the tile is kept and the scan advances one
position.  Returns (merged tiles, score gain). -/
def mergePairs : List ℕ → List ℕ × ℕ
  | [] => ([], 0)
  | [x] => ([x], 0)
  | x :: y :: rest =>
    if x = y then
      (x * 2 :: (mergePairs rest).1, x * 2 + (mergePairs rest).2)
    else
      (x :: (mergePairs (y :: rest)).1, (mergePairs (y :: rest)).2)

/-- The list of doubled values created by the merging scan (one entry per
merge performed).  Used to state that the score gain is exactly the sum of
the newly created tile values. -/
def mergedValues : List ℕ → List ℕ
  | [] => []
  | [_] => []
  | x :: y :: rest =>
    if x = y then x * 2 :: mergedValues rest
    else mergedValues (y :: rest)

/-- `merge(line)` of `game2048.py`: drop zeros, run the merging scan, pad on
the right with zeros back to the line length.  Returns (new line, score gain). -/
def merge (line : List ℕ) : List ℕ × ℕ :=
  let tiles := line.filter (fun x => x ≠ 0)
  let p := mergePairs tiles
  (p.1 ++ List.replicate (line.length - p.1.length) 0, p.2)

/-- `direction == 'left'`: merge every row; gains accumulate over rows. -/
def moveLeft (b : Board) : Board × ℕ :=
  (b.map (fun r => (merge r).1), (b.map (fun r => (merge r).2)).sum)

/-- `direction == 'right'`: merge every reversed row, then reverse back. -/
def moveRight (b : Board) : Board × ℕ :=
  (b.map (fun r => ((merge r.reverse).1).reverse),
   (b.map (fun r => (merge r.reverse).2)).sum)

/-- The list of columns `[board[r][c] for r in range(size)]`, `c < size`,
with `size = len(board)` (the board is square in the program). -/
def cols (b : Board) : Board :=
  (List.range b.length).map (fun c => b.map (fun row => row.getD c 0))

/-- Rebuild a board of `n` rows from its list of columns
(`new_board[r][c] = merged_c[r]`). -/
def fromCols (n : ℕ) (cs : Board) : Board :=
  (List.range n).map (fun r => cs.map (fun col => col.getD r 0))

/-- `direction == 'up'`: merge every column top-down. -/
def moveUp (b : Board) : Board × ℕ :=
  let ms := (cols b).map merge
  (fromCols b.length (ms.map (fun p => p.1)), (ms.map (fun p => p.2)).sum)

/-- `direction == 'down'`: merge every reversed column, reverse back. -/
def moveDown (b : Board) : Board × ℕ :=
  let ms := (cols b).map (fun col => merge col.reverse)
  (fromCols b.length (ms.map (fun p => p.1.reverse)), (ms.map (fun p => p.2)).sum)

/-- The move-resolution part of `State._simulate_move` (no tile spawn):
resolved board together with the score gained by merges. -/
def moveBoard (b : Board) : Move → Board × ℕ
  | .left => moveLeft b
  | .right => moveRight b
  | .up => moveUp b
  | .down => moveDown b

/-- A game state: board plus cumulative score (`Game2048.State`). -/
structure State where
  board : Board
  score : ℕ
deriving DecidableEq, Repr

/-- One random spawn draw: an index choosing among the empty cells
(`random.choice(empty)`) and the outcome of `random.random() < 0.9`
(`true` spawns a 2, `false` a 4). -/
structure Spawn where
  cellChoice : ℕ
  isTwo : Bool
deriving DecidableEq, Repr

/-- The tile-spawn step of `_simulate_move` / `_add_random_tile`: place a
2 or a 4 on a chosen empty cell; no-op when no cell is empty.  The spawn
never touches the score. -/
def addTile (b : Board) (g : Spawn) : Board :=
  match emptyCells b with
  | [] => b
  | e :: es =>
    let p := (e :: es).getD (g.cellChoice % (e :: es).length) e
    setCell b p.1 p.2 (if g.isTwo then 2 else 4)

/-- `State.successor`: resolve the move (score increases by the merge gains),
then spawn one random tile.  The random draw is the explicit `g`. -/
def successor (s : State) (m : Move) (g : Spawn) : State :=
  let p := moveBoard s.board m
  { board := addTile p.1 g, score := s.score + p.2 }

/-- `State.get_actions`: the directions, in order up/down/left/right, whose
simulated application (merge only, no spawn) changes the board. -/
def get_actions (s : State) : List Move :=
  [Move.up, Move.down, Move.left, Move.right].filter
    (fun m => (moveBoard s.board m).1 ≠ s.board)

/-- Some tile has reached 2048 (`any(tile >= 2048 for tile in row)`). -/
def hasWon (b : Board) : Bool := b.any (fun row => row.any (fun t => 2048 ≤ t))

/-- `State.is_terminal`: a 2048 tile exists or no move changes the board. -/
def is_terminal (s : State) : Bool := hasWon s.board || (get_actions s).isEmpty

/-- Apply a sequence of moves with their spawn draws (`successor` chained). -/
def runGame (s : State) : List (Move × Spawn) → State
  | [] => s
  | (m, g) :: rest => runGame (successor s m g) rest

end Game2048

namespace Expectimax

open Game2048

/-- The sum accumulated into `mono_score` by `ExpectimaxAgent.evaluate`
before negation: for every adjacent pair in a row with `row[i] >= row[i+1]`
add `row[i+1] - row[i]`, and for every adjacent pair in a column with
`board[r][c] >= board[r+1][c]` add `board[r+1][c] - board[r][c]`.
Every contribution is non-positive. -/
def monoAccum (b : Board) : ℤ :=
  (b.map (fun row =>
    ((List.range (b.length - 1)).map (fun i =>
      if row.getD (i + 1) 0 ≤ row.getD i 0 then
        (row.getD (i + 1) 0 : ℤ) - (row.getD i 0 : ℤ)
      else 0)).sum)).sum
  + ((List.range b.length).map (fun c =>
      ((List.range (b.length - 1)).map (fun r =>
        if cell b (r + 1) c ≤ cell b r c then
          (cell b (r + 1) c : ℤ) - (cell b r c : ℤ)
        else 0)).sum)).sum

/-- `mono_score = -mono_score` after accumulation: the monotonicity term of
the evaluation function. -/
def monoTerm (b : Board) : ℤ := -monoAccum b

/-- The smoothness term: for every non-empty tile, subtract the absolute
difference with its right and down neighbours whenever those are in bounds
and non-empty. -/
def smoothContrib (b : Board) (size r c : ℕ) : ℤ :=
  if cell b r c = 0 then 0 else
    (if c + 1 < size ∧ cell b r (c + 1) ≠ 0 then
      |(cell b r c : ℤ) - (cell b r (c + 1) : ℤ)| else 0)
    + (if r + 1 < size ∧ cell b (r + 1) c ≠ 0 then
      |(cell b r c : ℤ) - (cell b (r + 1) c : ℤ)| else 0)

/-- The smoothness term itself (the code starts from `0` and subtracts each
absolute difference, so it equals the negated accumulated total). -/
def smoothTerm (b : Board) : ℤ :=
  -((List.range b.length).map (fun r =>
    ((List.range b.length).map (smoothContrib b b.length r)).sum)).sum

/-- `ExpectimaxAgent.evaluate`: weighted sum of score, empty-tile count,
corner bonus for the maximal tile, monotonicity and smoothness, with the
fixed weights 1.0, 100.0, 1.5, 1.0, 1.0. -/
def evaluate (s : State) : ℚ :=
  let b := s.board
  let size := b.length
  let empty_tiles : ℕ := (b.map (fun row => (row.filter (fun v => v = 0)).length)).sum
  let max_tile : ℕ := (b.map (fun row => row.foldr max 0)).foldr max 0
  let corners : List ℕ :=
    [cell b 0 0, cell b 0 (size - 1), cell b (size - 1) 0, cell b (size - 1) (size - 1)]
  let corner_bonus : ℕ := if max_tile ∈ corners then max_tile * 2 else 0
  (s.score : ℚ) + 100 * (empty_tiles : ℚ) + (3 / 2) * (corner_bonus : ℚ)
    + (monoTerm b : ℚ) + (smoothTerm b : ℚ)

/-- The max layer's running best: starting from the first action (the code
starts from `best_value = -inf`, so the first candidate always wins the
first comparison), replace the best exactly when a later value is strictly
greater (`value > best_value`). -/
def maxFold : List (Move × ℚ) → ℚ × Option Move → ℚ × Option Move
  | [], acc => acc
  | (m, v) :: rest, (bv, bm) =>
    maxFold rest (if bv < v then (v, some m) else (bv, bm))

/-- `[(i, j) ...]` over `range(len(board)) × range(len(board[0]))` as in the
chance layer of `expectimax.py` (identical to `emptyCells` on the program's
square boards). -/
def emptyCellsRect (b : Board) : List (ℕ × ℕ) :=
  ((List.range b.length).map (fun i =>
    (List.range (b.getD 0 []).length).filterMap (fun j =>
      if cell b i j = 0 then some (i, j) else none))).flatten

/-- `ExpectimaxAgent.expectimax(state, depth, is_max)`, value in `ℚ`.
The random spawns performed by `state.successor(move)` in the max layer are
supplied by the oracle `g`, indexed by the remaining depth and the action's
position in the legal-action list.  Returns (expected value, best action). -/
def expectimax (g : ℕ → ℕ → Spawn) (s : State) : ℕ → Bool → ℚ × Option Move
  | 0, _ => (evaluate s, none)
  | d + 1, is_max =>
    if is_terminal s then (evaluate s, none)
    else
      match get_actions s with
      | [] => (evaluate s, none)
      | a :: rest =>
        if is_max then
          let pairs := (a :: rest).enum.map (fun p =>
            (p.2, (expectimax g (successor s p.2 (g d p.1)) d false).1))
          match pairs with
          | [] => (evaluate s, none)
          | q :: qs => maxFold qs (q.2, some q.1)
        else
          match emptyCellsRect s.board with
          | [] => (evaluate s, none)
          | e :: es =>
            let cellsList := e :: es
            let expected : ℚ :=
              (cellsList.map (fun p =>
                ((expectimax g ⟨setCell s.board p.1 p.2 2, s.score⟩ d true).1 * (9 / 10)
                  + (expectimax g ⟨setCell s.board p.1 p.2 4, s.score⟩ d true).1 * (1 / 10))
                / (cellsList.length : ℚ))).sum
            (expected, none)

end Expectimax

namespace MCTS

open Game2048

/-- The `pred_history` mapping of `mcts.py`: one scalar weight per rollout
predicate (all initialised to 1.0, mutated after every rollout). -/
structure PredHist where
  max_in_corner : ℚ
  empty_count : ℚ
  monotonic_rows : ℚ
  monotonic_cols : ℚ
deriving DecidableEq, Repr

/-- The number of rows whose adjacent pairs are all non-decreasing
(`all(row[i] <= row[i+1] for i in range(size-1))`, `size = len(board)`). -/
def rowMonoCount (b : Board) : ℕ :=
  (b.filter (fun row =>
    (List.range (b.length - 1)).all (fun i => row.getD i 0 ≤ row.getD (i + 1) 0))).length

/-- The number of columns whose adjacent pairs are all non-decreasing. -/
def colMonoCount (b : Board) : ℕ :=
  ((List.range b.length).filter (fun j =>
    (List.range (b.length - 1)).all (fun i => cell b i j ≤ cell b (i + 1) j))).length

/-- `1` when the maximal tile sits in one of the four corners
(`board[0][0], board[0][-1], board[-1][0], board[-1][-1]`), else `0`. -/
def maxInCorner (b : Board) : ℕ :=
  let max_tile := (b.map (fun row => row.foldr max 0)).foldr max 0
  let corners : List ℕ :=
    [(b.getD 0 []).getD 0 0, (b.getD 0 []).getLastD 0,
     (b.getLastD []).getD 0 0, (b.getLastD []).getLastD 0]
  if max_tile ∈ corners then 1 else 0

/-- The number of empty cells of the board. -/
def emptyCount (b : Board) : ℕ :=
  (b.map (fun row => (row.filter (fun v => v = 0)).length)).sum

/-- `predicate_score(board)`: each predicate value weighted by the current
`pred_history` weight, summed. -/
def predicate_score (h : PredHist) (b : Board) : ℚ :=
  (maxInCorner b : ℚ) * h.max_in_corner + (emptyCount b : ℚ) * h.empty_count
    + (rowMonoCount b : ℚ) * h.monotonic_rows + (colMonoCount b : ℚ) * h.monotonic_cols

/-- The post-rollout update of `pred_history`: every weight moves by
exponential smoothing toward the rollout's final score,
`w ← 0.9·w + 0.1·final_score`. -/
def histUpdate (h : PredHist) (final_score : ℚ) : PredHist :=
  ⟨9 / 10 * h.max_in_corner + 1 / 10 * final_score,
   9 / 10 * h.empty_count + 1 / 10 * final_score,
   9 / 10 * h.monotonic_rows + 1 / 10 * final_score,
   9 / 10 * h.monotonic_cols + 1 / 10 * final_score⟩

/-- A search-tree node (`Node` of `mcts.py`): state, expanded children in
creation order, accumulated rollout value, visit count, not-yet-tried
actions, and the action that produced the node from its parent.  The parent
back-reference of the Python class is implicit in the tree structure. -/
inductive NodeT where
  | mk (state : State) (children : List NodeT) (value : ℚ) (visits : ℕ)
       (remaining : List Move) (action : Option Move)

def NodeT.state : NodeT → State
  | .mk s _ _ _ _ _ => s

def NodeT.children : NodeT → List NodeT
  | .mk _ c _ _ _ _ => c

def NodeT.value : NodeT → ℚ
  | .mk _ _ v _ _ _ => v

def NodeT.visits : NodeT → ℕ
  | .mk _ _ _ n _ _ => n

def NodeT.remaining : NodeT → List Move
  | .mk _ _ _ _ r _ => r

def NodeT.action : NodeT → Option Move
  | .mk _ _ _ _ _ a => a

/-- `Node.__init__`: fresh node with no children, zero statistics, and the
untried-action list `state.get_actions() if not state.is_terminal() else []`. -/
def NodeT.init (s : State) (a : Option Move) : NodeT :=
  .mk s [] 0 0 (if is_terminal s then [] else get_actions s) a

/-- `Node.is_fully_expanded`: no untried action remains. -/
def NodeT.fullyExpanded (n : NodeT) : Bool := n.remaining.isEmpty

/-- The UCB weight `best_child` computes for one child: infinite for an
unvisited child, otherwise
`child.value / child.visits + sqrt(c * log(parent.visits + 1) / child.visits)`. -/
noncomputable def ucbWeight (parentVisits : ℕ) (c : ℝ) (ch : NodeT) : WithTop ℝ :=
  if ch.visits = 0 then ⊤
  else (((ch.value / (ch.visits : ℚ) : ℚ) : ℝ)
    + Real.sqrt (c * Real.log ((parentVisits : ℝ) + 1) / (ch.visits : ℝ)) : ℝ)

open Classical in
/-- First index of the maximum of a weight list
(`choices_weights.index(max(choices_weights))`): a later weight displaces
the current best only when strictly greater. -/
noncomputable def idxOfMaxAux : List (WithTop ℝ) → WithTop ℝ → ℕ → ℕ → ℕ
  | [], _, _, bi => bi
  | w :: ws, best, i, bi =>
    if best < w then idxOfMaxAux ws w (i + 1) i else idxOfMaxAux ws best (i + 1) bi

noncomputable def idxOfMax : List (WithTop ℝ) → ℕ
  | [] => 0
  | w :: ws => idxOfMaxAux ws w 1 0

/-- `Node.best_child(c)`: the child at the first index attaining the
maximal UCB weight (`none` only for a childless node, where the Python
`max` would raise). -/
noncomputable def best_child (n : NodeT) (c : ℝ) : Option NodeT :=
  n.children[idxOfMax (n.children.map (ucbWeight n.visits c))]?

/-- The child-selection step as the search actually invokes it: `select`
calls `node.best_child()` with the default exploration constant `c = 1.5`. -/
noncomputable def select_child (n : NodeT) : Option NodeT := best_child n (3 / 2)

/-- The random draws consumed by one step of `rollout`: the forced-2 cell
choice for each action's lookahead board (indexed by the action's position),
the choice among the best-scoring moves, and the real spawn of the applied
`successor`. -/
structure StepR where
  force : ℕ → ℕ
  pick : ℕ
  spawn : Spawn

/-- The lookahead board `rollout` scores for one action: resolve the move
without a spawn, then force a `2` onto a chosen empty cell (if any). -/
def forcedBoard (s : State) (m : Move) (r : ℕ) : Board :=
  let nb := (moveBoard s.board m).1
  match emptyCells nb with
  | [] => nb
  | e :: es =>
    let p := (e :: es).getD (r % (e :: es).length) e
    setCell nb p.1 p.2 2

/-- The scan of `rollout` over the legal actions (in order, with their
positions): a strictly better predicate score starts a new best-move list,
an equal score appends, a worse score is dropped.  Starts from
`best_score = -1`, `best_moves = []`. -/
def rolloutBest (h : PredHist) (s : State) (r : StepR) :
    List (ℕ × Move) → ℚ × List Move → ℚ × List Move
  | [], acc => acc
  | (idx, m) :: rest, (bs, bm) =>
    let sc := predicate_score h (forcedBoard s m (r.force idx))
    if bs < sc then rolloutBest h s r rest (sc, [m])
    else if sc = bs then rolloutBest h s r rest (bs, bm ++ [m])
    else rolloutBest h s r rest (bs, bm)

/-- One iteration of the `rollout` loop: pick among the best-scoring moves
and apply it with a real spawn.  (When the best-move list is empty — in the
program only possible if every predicate score were below `-1`, where
`random.choice([])` would raise — the state is returned unchanged.) -/
def rolloutStep (h : PredHist) (s : State) (r : StepR) : State :=
  let best := rolloutBest h s r (get_actions s).enum (-1, [])
  match best.2 with
  | [] => s
  | a :: as => successor s ((a :: as).getD (r.pick % (a :: as).length) a) r.spawn

/-- The `while not state.is_terminal()` loop of `rollout`, fuel-bounded
(the Python loop's termination rests on the game ending). -/
def rolloutGo (h : PredHist) : ℕ → State → (ℕ → StepR) → State
  | 0, s, _ => s
  | f + 1, s, ρ => if is_terminal s then s else rolloutGo h f (rolloutStep h s (ρ f)) ρ

/-- `rollout(node)` overall: the final state's cumulative score, together
with the exponentially smoothed update of `pred_history`. -/
def rolloutRes (h : PredHist) (fuel : ℕ) (s : State) (ρ : ℕ → StepR) : ℚ × PredHist :=
  let fs := rolloutGo h fuel s ρ
  ((fs.score : ℚ), histUpdate h (fs.score : ℚ))

/-- The random draws consumed by one MCTS iteration: the expansion's
successor spawn and the rollout's stream. -/
structure IterR where
  spawn : Spawn
  roll : ℕ → StepR

/-- The end of the selection walk for one MCTS iteration: at the node where
selection stops, expand one child (popping the *last* untried action, as
`list.pop()` does) unless the node is terminal, roll out from the expanded
child (or from the node itself when terminal or exhausted), and credit the
rollout result to the node and the new child, as `backpropagate` does. -/
def mctsStop (rf : ℕ) (n : NodeT) (r : IterR) (h : PredHist) : NodeT × ℚ × PredHist :=
  if is_terminal n.state = true then
    let res := rolloutRes h rf n.state r.roll
    (.mk n.state n.children (n.value + res.1) (n.visits + 1) n.remaining n.action,
     res.1, res.2)
  else
    match n.remaining.getLast? with
    | none =>
      let res := rolloutRes h rf n.state r.roll
      (.mk n.state n.children (n.value + res.1) (n.visits + 1) n.remaining n.action,
       res.1, res.2)
    | some a =>
      let child := NodeT.init (successor n.state a r.spawn) (some a)
      let res := rolloutRes h rf child.state r.roll
      let child2 := NodeT.mk child.state child.children res.1 1 child.remaining child.action
      (.mk n.state (n.children ++ [child2]) (n.value + res.1) (n.visits + 1)
        n.remaining.dropLast n.action, res.1, res.2)

/-- One iteration of the MCTS loop (`select`, `expand`, `rollout`,
`backpropagate`), written as a recursive tree update: descend through the
UCB-best child while the node is fully expanded and non-terminal (fuel `sf`
bounds the descent depth, which the program bounds by the finite tree),
handle the stop node with `mctsStop`, and credit the rollout result to
every node on the path.  Returns the updated node, the rollout result, and
the updated predicate weights. -/
noncomputable def mctsIter (rf : ℕ) : ℕ → NodeT → IterR → PredHist → NodeT × ℚ × PredHist
  | 0, n, r, h => mctsStop rf n r h
  | sf + 1, n, r, h =>
    if ¬ n.fullyExpanded = true ∨ is_terminal n.state = true then mctsStop rf n r h
    else
      let i := idxOfMax (n.children.map (ucbWeight n.visits (3 / 2)))
      match n.children[i]? with
      | none => mctsStop rf n r h
      | some ch =>
        let q := mctsIter rf sf ch r h
        (.mk n.state (n.children.set i q.1) (n.value + q.2.1) (n.visits + 1)
          n.remaining n.action, q.2.1, q.2.2)

/-- The time-bounded `while` of `policy`, abstracted to a fixed number of
iterations `k` (the wall clock is outside the model), with one `IterR` of
random draws per iteration. -/
noncomputable def mctsLoop (rf sf : ℕ) : ℕ → NodeT → (ℕ → IterR) → PredHist → NodeT × PredHist
  | 0, n, _, h => (n, h)
  | k + 1, n, ρ, h =>
    let q := mctsIter rf sf n (ρ k) h
    mctsLoop rf sf k q.1 ρ q.2.2

/-- `max(root.children, key=lambda c: c.visits)`: the first child attaining
the maximal visit count (a later child displaces the best only when
strictly more visited). -/
def maxVisits : NodeT → List NodeT → NodeT
  | best, [] => best
  | best, c :: cs => maxVisits (if best.visits < c.visits then c else best) cs

/-- The final move choice of `policy` once the budget has expired: with no
root children, `random.choice(position.get_actions())` — modelled as the
draw `k` indexing uniformly into the legal actions, and as no value at all
when that list is empty (where `random.choice` raises `IndexError`);
otherwise the action of the most-visited child. -/
def policyMoveChoice (root : NodeT) (pos : State) (k : ℕ) : Option Move :=
  match root.children with
  | [] =>
    match get_actions pos with
    | [] => none
    | a :: as => some ((a :: as).getD (k % (a :: as).length) a)
  | c :: cs => (maxVisits c cs).action

/-- `n` is an element of `l` whose visit count is maximal, and every
earlier element is strictly less visited (first-encountered tie-break). -/
def firstMaxVisits (l : List NodeT) (n : NodeT) : Prop :=
  ∃ pre post, l = pre ++ n :: post ∧ (∀ d ∈ pre, d.visits < n.visits)
    ∧ ∀ d ∈ l, d.visits ≤ n.visits

end MCTS

open Game2048 Expectimax MCTS

/-- The tile-value invariant of the data model: every cell is empty (0) or a
power of two that is at least 2. -/
def PowInv (b : Board) : Prop :=
  ∀ row ∈ b, ∀ x ∈ row, x = 0 ∨ (2 ≤ x ∧ ∃ k, x = 2 ^ k)

/-- A board whose rows and columns are strictly increasing, phrased over the
same adjacent pairs the monotonicity term inspects. -/
def StrictlyIncreasing (b : Board) : Prop :=
  (∀ row ∈ b, ∀ i < b.length - 1, row.getD i 0 < row.getD (i + 1) 0)
  ∧ ∀ c < b.length, ∀ r < b.length - 1, cell b r c < cell b (r + 1) c

instance (b : Board) : Decidable (StrictlyIncreasing b) := by
  unfold StrictlyIncreasing
  infer_instance

/-- A board with strictly increasing rows and columns. -/
def bInc : Board := [[2, 4, 8], [16, 32, 64], [128, 256, 512]]

/-- A board with a strictly decreasing first row and column. -/
def bDec : Board := [[4, 2, 0], [0, 0, 0], [0, 0, 0]]

/-- A state with one mergeable pair, used for concrete transitions. -/
def sC2 : State := ⟨[[2, 2, 0], [0, 0, 0], [0, 0, 0]], 0⟩

/-- A full board with no equal neighbours: no move changes it. -/
def sStuck : State := ⟨[[2, 4, 2], [4, 2, 4], [2, 4, 2]], 0⟩

/-- A fixed spawn oracle for instantiating expectimax. -/
def gEx : ℕ → ℕ → Spawn := fun _ _ => ⟨0, true⟩

/-- A concrete search-tree child: unvisited statistics value 0, 1 visit. -/
def exChildA : NodeT := .mk sStuck [] 0 1 [] (some .up)

/-- A concrete search-tree child: value 6/5 over 2 visits. -/
def exChildB : NodeT := .mk sStuck [] (6 / 5) 2 [] (some .down)

/-- A concrete fully expanded node with the two children above and 3 visits. -/
def exNode : NodeT := .mk sStuck [exChildA, exChildB] (6 / 5) 3 [] none

theorem mergePairs_length_le (l : List ℕ) : (mergePairs l).1.length ≤ l.length := by
  induction l using mergePairs.induct with
  | case1 => simp [mergePairs]
  | case2 x => simp [mergePairs]
  | case3 y rest ih =>
    simp [mergePairs] at ih ⊢
    omega
  | case4 x y rest h ih =>
    simp [mergePairs, h] at ih ⊢
    omega

theorem mergePairs_mem (l : List ℕ) (x : ℕ) :
    x ∈ (mergePairs l).1 → ∃ y ∈ l, x = y ∨ x = y * 2 := by
  induction l using mergePairs.induct with
  | case1 => intro hx; simp [mergePairs] at hx
  | case2 a =>
    intro hx; simp [mergePairs] at hx
    exact ⟨a, by simp, Or.inl hx⟩
  | case3 y rest ih =>
    intro hx
    simp [mergePairs] at hx
    rcases hx with h | h
    · exact ⟨y, by simp, Or.inr h⟩
    · obtain ⟨z, hz, hzz⟩ := ih h
      exact ⟨z, List.mem_cons_of_mem _ (List.mem_cons_of_mem _ hz), hzz⟩
  | case4 a y rest h ih =>
    intro hx
    simp [mergePairs, h] at hx
    rcases hx with h1 | h1
    · exact ⟨a, by simp, Or.inl h1⟩
    · obtain ⟨z, hz, hzz⟩ := ih h1
      exact ⟨z, List.mem_cons_of_mem _ hz, hzz⟩

theorem mergePairs_gain (l : List ℕ) : (mergePairs l).2 = (mergedValues l).sum := by
  induction l using mergePairs.induct with
  | case1 => simp [mergePairs, mergedValues]
  | case2 x => simp [mergePairs, mergedValues]
  | case3 y rest ih => simp [mergePairs, mergedValues, ih]
  | case4 x y rest h ih => simp [mergePairs, mergedValues, h, ih]

theorem merge_length (l : List ℕ) : (merge l).1.length = l.length := by
  have h1 := mergePairs_length_le (l.filter (fun x => x ≠ 0))
  have h2 : (l.filter (fun x => decide (x ≠ 0))).length ≤ l.length :=
    List.length_filter_le _ _
  simp only [merge, List.length_append, List.length_replicate]
  omega

theorem merge_mem (l : List ℕ) (x : ℕ) (hx : x ∈ (merge l).1) :
    x = 0 ∨ ∃ y ∈ l, x = y ∨ x = y * 2 := by
  simp only [merge, List.mem_append] at hx
  rcases hx with h | h
  · obtain ⟨y, hy, hyy⟩ := mergePairs_mem _ _ h
    right; exact ⟨y, (List.mem_filter.mp hy).1, hyy⟩
  · left; exact List.eq_of_mem_replicate h

theorem getD_mem_or {α : Type} (l : List α) (i : ℕ) (d : α) :
    l.getD i d ∈ l ∨ l.getD i d = d := by
  induction l generalizing i with
  | nil => right; simp
  | cons a t ih =>
    cases i with
    | zero => left; simp
    | succ j =>
      rw [List.getD_cons_succ]
      rcases ih j with h | h
      · left; exact List.mem_cons_of_mem _ h
      · right; exact h

theorem cols_mem (b : Board) (c : List ℕ) (y : ℕ) (hc : c ∈ cols b) (hy : y ∈ c) :
    y = 0 ∨ ∃ r ∈ b, y ∈ r := by
  simp only [cols, List.mem_map, List.mem_range] at hc
  obtain ⟨c0, _, rfl⟩ := hc
  simp only [List.mem_map] at hy
  obtain ⟨rr, hrr, rfl⟩ := hy
  rcases getD_mem_or rr c0 0 with h | h
  · right; exact ⟨rr, hrr, h⟩
  · left; exact h

theorem fromCols_mem (n : ℕ) (cs : Board) (row : List ℕ) (x : ℕ)
    (hr : row ∈ fromCols n cs) (hx : x ∈ row) : x = 0 ∨ ∃ col ∈ cs, x ∈ col := by
  simp only [fromCols, List.mem_map, List.mem_range] at hr
  obtain ⟨r0, _, rfl⟩ := hr
  simp only [List.mem_map] at hx
  obtain ⟨col, hcol, rfl⟩ := hx
  rcases getD_mem_or col r0 0 with h | h
  · right; exact ⟨col, hcol, h⟩
  · left; exact h

theorem moveBoard_mem (b : Board) (m : Move) (row : List ℕ) (x : ℕ)
    (hr : row ∈ (moveBoard b m).1) (hx : x ∈ row) :
    x = 0 ∨ ∃ y, (∃ r ∈ b, y ∈ r) ∧ (x = y ∨ x = y * 2) := by
  cases m with
  | left =>
    simp only [moveBoard, moveLeft, List.mem_map] at hr
    obtain ⟨r, hrb, rfl⟩ := hr
    rcases merge_mem r x hx with h | ⟨y, hy, hyy⟩
    · exact Or.inl h
    · exact Or.inr ⟨y, ⟨r, hrb, hy⟩, hyy⟩
  | right =>
    simp only [moveBoard, moveRight, List.mem_map] at hr
    obtain ⟨r, hrb, rfl⟩ := hr
    rw [List.mem_reverse] at hx
    rcases merge_mem r.reverse x hx with h | ⟨y, hy, hyy⟩
    · exact Or.inl h
    · rw [List.mem_reverse] at hy
      exact Or.inr ⟨y, ⟨r, hrb, hy⟩, hyy⟩
  | up =>
    simp only [moveBoard, moveUp] at hr
    rcases fromCols_mem _ _ _ _ hr hx with h | ⟨col, hcol, hxc⟩
    · exact Or.inl h
    · simp only [List.map_map, List.mem_map] at hcol
      obtain ⟨c, hcb, rfl⟩ := hcol
      rcases merge_mem c x hxc with h | ⟨y, hy, hyy⟩
      · exact Or.inl h
      · rcases cols_mem b c y hcb hy with h0 | ⟨r, hrb, hyr⟩
        · subst h0; rcases hyy with h | h <;> simp [h]
        · exact Or.inr ⟨y, ⟨r, hrb, hyr⟩, hyy⟩
  | down =>
    simp only [moveBoard, moveDown] at hr
    rcases fromCols_mem _ _ _ _ hr hx with h | ⟨col, hcol, hxc⟩
    · exact Or.inl h
    · simp only [List.map_map, List.mem_map] at hcol
      obtain ⟨c, hcb, rfl⟩ := hcol
      simp only [Function.comp] at hxc
      rw [List.mem_reverse] at hxc
      rcases merge_mem c.reverse x hxc with h | ⟨y, hy, hyy⟩
      · exact Or.inl h
      · rw [List.mem_reverse] at hy
        rcases cols_mem b c y hcb hy with h0 | ⟨r, hrb, hyr⟩
        · subst h0; rcases hyy with h | h <;> simp [h]
        · exact Or.inr ⟨y, ⟨r, hrb, hyr⟩, hyy⟩

theorem setCell_mem (b : Board) (i j v : ℕ) (row : List ℕ) (x : ℕ)
    (hr : row ∈ setCell b i j v) (hx : x ∈ row) :
    (∃ r ∈ b, x ∈ r) ∨ x = v := by
  rcases List.mem_or_eq_of_mem_set hr with h | h
  · exact Or.inl ⟨row, h, hx⟩
  · subst h
    rcases List.mem_or_eq_of_mem_set hx with h | h
    · rcases getD_mem_or b i [] with hb | hb
      · exact Or.inl ⟨_, hb, h⟩
      · rw [hb] at h; simp at h
    · exact Or.inr h

theorem addTile_mem (b : Board) (g : Spawn) (row : List ℕ) (x : ℕ)
    (hr : row ∈ addTile b g) (hx : x ∈ row) :
    (∃ r ∈ b, x ∈ r) ∨ x = 2 ∨ x = 4 := by
  rcases hec : emptyCells b with _ | ⟨e, es⟩
  · rw [addTile, hec] at hr
    exact Or.inl ⟨row, hr, hx⟩
  · rw [addTile, hec] at hr
    rcases setCell_mem _ _ _ _ _ _ hr hx with h | h
    · exact Or.inl h
    · cases g.isTwo <;> simp_all

theorem int_sum_nonpos (l : List ℤ) (h : ∀ x ∈ l, x ≤ 0) : l.sum ≤ 0 := by
  induction l with
  | nil => simp
  | cons a t ih =>
    simp only [List.sum_cons]
    have h1 := h a (by simp)
    have h2 := ih (fun x hx => h x (List.mem_cons_of_mem _ hx))
    omega

theorem monoAccum_nonpos (b : Board) : monoAccum b ≤ 0 := by
  unfold monoAccum
  have h1 : ∀ part : List ℤ,
      (∀ x ∈ part, x ≤ 0) → part.sum ≤ 0 := int_sum_nonpos
  refine add_nonpos (h1 _ ?_) (h1 _ ?_)
  · intro x hx
    simp only [List.mem_map] at hx
    obtain ⟨row, _, rfl⟩ := hx
    refine h1 _ ?_
    intro z hz
    simp only [List.mem_map, List.mem_range] at hz
    obtain ⟨i, _, rfl⟩ := hz
    split <;> omega
  · intro x hx
    simp only [List.mem_map, List.mem_range] at hx
    obtain ⟨c, _, rfl⟩ := hx
    refine h1 _ ?_
    intro z hz
    simp only [List.mem_map, List.mem_range] at hz
    obtain ⟨r, _, rfl⟩ := hz
    split <;> omega

theorem monoAccum_of_strictInc (b : Board) (h : StrictlyIncreasing b) :
    monoAccum b = 0 := by
  unfold monoAccum
  have h1 : (b.map (fun row =>
      ((List.range (b.length - 1)).map (fun i =>
        if row.getD (i + 1) 0 ≤ row.getD i 0 then
          (row.getD (i + 1) 0 : ℤ) - (row.getD i 0 : ℤ)
        else 0)).sum)).sum = 0 := by
    refine List.sum_eq_zero ?_
    intro x hx
    simp only [List.mem_map] at hx
    obtain ⟨row, hrow, rfl⟩ := hx
    refine List.sum_eq_zero ?_
    intro z hz
    simp only [List.mem_map, List.mem_range] at hz
    obtain ⟨i, hi, rfl⟩ := hz
    rw [if_neg (not_le.mpr (h.1 row hrow i hi))]
  have h2 : ((List.range b.length).map (fun c =>
      ((List.range (b.length - 1)).map (fun r =>
        if cell b (r + 1) c ≤ cell b r c then
          (cell b (r + 1) c : ℤ) - (cell b r c : ℤ)
        else 0)).sum)).sum = 0 := by
    refine List.sum_eq_zero ?_
    intro x hx
    simp only [List.mem_map, List.mem_range] at hx
    obtain ⟨c, hc, rfl⟩ := hx
    refine List.sum_eq_zero ?_
    intro z hz
    simp only [List.mem_map, List.mem_range] at hz
    obtain ⟨r, hr, rfl⟩ := hz
    rw [if_neg (not_le.mpr (h.2 c hc r hr))]
  rw [h1, h2]
  simp

/-- **C1** (counterexample).  The claim says the negated accumulation makes
strictly increasing boards attain the *highest* monotonicity term.  On the
code the term is the negation of a sum of non-positive contributions, so a
strictly increasing board gets 0 while a board with descents gets a strictly
positive term: `bInc` is strictly increasing in rows and columns, yet its
monotonicity term is below that of `bDec`. -/
theorem C1_counterexample : StrictlyIncreasing bInc ∧ monoTerm bInc < monoTerm bDec :=
  ⟨by decide, by decide⟩

/-- **C1** (amended).  The monotonicity term adds `(right - left)` for every
adjacent pair with left ≥ right (rows and columns) and negates the sum; this
makes boards with strictly increasing rows and columns attain the *lowest*
monotonicity term: such a board scores exactly 0 while every board scores
at least 0. -/
theorem C1_amended (b : Board) (h : StrictlyIncreasing b) :
    monoTerm b = 0 ∧ ∀ b2 : Board, monoTerm b ≤ monoTerm b2 := by
  have hz : monoAccum b = 0 := monoAccum_of_strictInc b h
  constructor
  · simp [monoTerm, hz]
  · intro b2
    have h2 := monoAccum_nonpos b2
    simp only [monoTerm, hz, neg_zero]
    omega

/-- **C1** (witness): the amended theorem applied at `bInc` and `bDec`. -/
theorem C1_amended_witness : monoTerm bInc = 0 ∧ monoTerm bInc ≤ monoTerm bDec :=
  ⟨(C1_amended bInc (by decide)).1, (C1_amended bInc (by decide)).2 bDec⟩

/-- **C2** (counterexample).  `successor` is *not* a pure function of state
and direction alone: with the same state and move, two different
random-spawn draws produce different results (the spawned tile lands on a
different cell). -/
theorem C2_counterexample :
    successor sC2 .left ⟨0, true⟩ ≠ successor sC2 .left ⟨1, true⟩ := by decide

/-- **C2** (amended).  Only the score component of `successor` is
invocation-independent: for every state and action the resulting score is
the same for any two random draws (and equals the input score plus the
merge gain); the resulting board additionally depends on the random spawn. -/
theorem C2_amended (s : State) (m : Move) (g g2 : Spawn) :
    (successor s m g).score = (successor s m g2).score
    ∧ (successor s m g).score = s.score + (moveBoard s.board m).2 :=
  ⟨rfl, rfl⟩

/-- **C4**: `is_terminal` holds exactly when the legal-action list is empty
or some tile is ≥ 2048. -/
theorem C4_terminal_iff (s : State) :
    is_terminal s = true ↔
      (get_actions s = [] ∨ ∃ row ∈ s.board, ∃ t ∈ row, 2048 ≤ t) := by
  simp [is_terminal, hasWon, List.isEmpty_iff, List.any_eq_true, or_comm]

/-- **C5**: the score of `successor(s, a)` is `s.score` plus the move's
merge gain, for *every* spawn draw (so the spawn step never changes the
score); each line's merge gain is exactly the sum of the doubled values
created by its merges; and the score is monotonically non-decreasing along
every sequence of successor transitions. -/
theorem C5_score_accounting :
    (∀ (s : State) (m : Move) (g : Spawn),
      (successor s m g).score = s.score + (moveBoard s.board m).2)
    ∧ (∀ l : List ℕ, (merge l).2 = (mergedValues (l.filter (fun x => x ≠ 0))).sum)
    ∧ ∀ (s : State) (steps : List (Move × Spawn)), s.score ≤ (runGame s steps).score := by
  refine ⟨fun s m g => rfl, fun l => mergePairs_gain _, ?_⟩
  intro s steps
  induction steps generalizing s with
  | nil => exact le_refl _
  | cons p rest ih =>
    obtain ⟨m, g⟩ := p
    have h1 : s.score ≤ (successor s m g).score := Nat.le_add_right _ _
    exact le_trans h1 (ih (successor s m g))

/-- **C6**: `successor` preserves the invariant that every cell is zero or
a power of two ≥ 2, for every direction and every spawn draw (merges double
powers of two, spawns place only a 2 or a 4). -/
theorem C6_pow2_invariant (s : State) (h : PowInv s.board) (m : Move) (g : Spawn) :
    PowInv (successor s m g).board := by
  intro row hr x hx
  have hr2 : row ∈ addTile (moveBoard s.board m).1 g := hr
  rcases addTile_mem _ _ _ _ hr2 hx with ⟨r, hrb, hxr⟩ | h2 | h4
  · rcases moveBoard_mem _ _ _ _ hrb hxr with h0 | ⟨y, ⟨r2, hr2b, hyr⟩, hxy⟩
    · exact Or.inl h0
    · rcases h r2 hr2b y hyr with h0 | ⟨hy2, k, hk⟩
      · subst h0
        rcases hxy with h3 | h3 <;> simp [h3]
      · rcases hxy with h3 | h3
        · subst h3; exact Or.inr ⟨hy2, k, hk⟩
        · subst h3
          refine Or.inr ⟨by omega, k + 1, ?_⟩
          rw [hk]; ring
  · subst h2; exact Or.inr ⟨le_refl 2, 1, rfl⟩
  · subst h4; exact Or.inr ⟨by omega, 2, rfl⟩

/-- **C6** (witness): the invariant theorem applied to a concrete state and
spawn draw. -/
theorem C6_pow2_invariant_witness : PowInv (successor sC2 .left ⟨0, true⟩).board := by
  refine C6_pow2_invariant sC2 ?_ .left ⟨0, true⟩
  show PowInv [[2, 2, 0], [0, 0, 0], [0, 0, 0]]
  intro row hr x hx
  simp only [List.mem_cons, List.not_mem_nil, or_false] at hr
  rcases hr with rfl | rfl | rfl <;>
    simp only [List.mem_cons, List.not_mem_nil, or_false] at hx <;>
    rcases hx with rfl | rfl | rfl <;>
    first
      | exact Or.inl rfl
      | exact Or.inr ⟨le_refl 2, 1, rfl⟩

/-- **C7**: single-line resolution pads with zeros back to the line length
(first conjunct: the resolved line always keeps the line's length), and the
concrete scenario: board `[[2,2,0],[0,0,0],[0,0,0]]` under `left` resolves
(before any spawn) to `[[4,0,0],[0,0,0],[0,0,0]]` with score gain 4; the
single line `[2,2,0]` resolves to `[4,0,0]` with gain 4. -/
theorem C7_merge_resolution :
    (∀ l : List ℕ, (merge l).1.length = l.length)
    ∧ merge [2, 2, 0] = ([4, 0, 0], 4)
    ∧ moveBoard [[2, 2, 0], [0, 0, 0], [0, 0, 0]] .left
        = ([[4, 0, 0], [0, 0, 0], [0, 0, 0]], 4) :=
  ⟨merge_length, by decide, by decide⟩

theorem actions_empty_is_terminal (s : State) (h : get_actions s = []) :
    is_terminal s = true := by
  simp [is_terminal, h]

/-- **C8**: the recursive expectimax at depth 0, or at a node with no legal
action, returns the evaluator applied to the state together with no action
recommendation. -/
theorem C8_expectimax_leaf (g : ℕ → ℕ → Spawn) (s : State) (d : ℕ) (is_max : Bool)
    (h : d = 0 ∨ get_actions s = []) :
    expectimax g s d is_max = (evaluate s, none) := by
  rcases h with rfl | h
  · rfl
  · cases d with
    | zero => rfl
    | succ d2 =>
      rw [expectimax]
      simp [actions_empty_is_terminal s h]

/-- **C8** (witness): depth 0 at a concrete state and, separately
dischargeable, a concrete no-action state at positive depth. -/
theorem C8_expectimax_leaf_witness :
    expectimax gEx sC2 0 true = (evaluate sC2, none)
    ∧ expectimax gEx sStuck 4 true = (evaluate sStuck, none) :=
  ⟨C8_expectimax_leaf gEx sC2 0 true (Or.inl rfl),
   C8_expectimax_leaf gEx sStuck 4 true (Or.inr (by decide))⟩

theorem maxVisits_firstMax (cs : List NodeT) :
    ∀ c : NodeT, firstMaxVisits (c :: cs) (maxVisits c cs) := by
  induction cs with
  | nil =>
    intro c
    exact ⟨[], [], rfl, by simp, by simp [maxVisits]⟩
  | cons d ds ih =>
    intro c
    by_cases hcd : c.visits < d.visits
    · obtain ⟨pre, post, hsplit, hpre, hall⟩ := ih d
      have hm : maxVisits c (d :: ds) = maxVisits d ds := by simp [maxVisits, hcd]
      rw [hm]
      have hd : d.visits ≤ (maxVisits d ds).visits := hall d (by simp)
      refine ⟨c :: pre, post, ?_, ?_, ?_⟩
      · rw [List.cons_append, ← hsplit]
      · intro e he
        rcases List.mem_cons.mp he with rfl | he2
        · exact lt_of_lt_of_le hcd hd
        · exact hpre e he2
      · intro e he
        rcases List.mem_cons.mp he with rfl | he2
        · exact le_of_lt (lt_of_lt_of_le hcd hd)
        · exact hall e he2
    · obtain ⟨pre, post, hsplit, hpre, hall⟩ := ih c
      have hm : maxVisits c (d :: ds) = maxVisits c ds := by simp [maxVisits, hcd]
      rw [hm]
      have hdc : d.visits ≤ c.visits := not_lt.mp hcd
      have hc : c.visits ≤ (maxVisits c ds).visits := hall c (by simp)
      cases pre with
      | nil =>
        simp only [List.nil_append] at hsplit
        have hcm : c = maxVisits c ds := (List.cons_eq_cons.mp hsplit).1
        refine ⟨[], d :: ds, ?_, by simp, ?_⟩
        · rw [List.nil_append, ← hcm]
        · intro e he
          rcases List.mem_cons.mp he with rfl | he2
          · rw [← hcm]
          · rcases List.mem_cons.mp he2 with rfl | he3
            · exact le_trans hdc hc
            · exact hall e (List.mem_cons_of_mem _ he3)
      | cons p pre2 =>
        rw [List.cons_append] at hsplit
        obtain ⟨hp, hds⟩ := List.cons_eq_cons.mp hsplit
        subst hp
        have hcpre : c.visits < (maxVisits c ds).visits := hpre c (by simp)
        refine ⟨c :: d :: pre2, post, ?_, ?_, ?_⟩
        · rw [List.cons_append, List.cons_append, ← hds]
        · intro e he
          rcases List.mem_cons.mp he with rfl | he2
          · exact hcpre
          · rcases List.mem_cons.mp he2 with rfl | he3
            · exact lt_of_le_of_lt hdc hcpre
            · exact hpre e (List.mem_cons_of_mem _ he3)
        · intro e he
          rcases List.mem_cons.mp he with rfl | he2
          · exact le_of_lt hcpre
          · rcases List.mem_cons.mp he2 with rfl | he3
            · exact le_of_lt (lt_of_le_of_lt hdc hcpre)
            · exact hall e (List.mem_cons_of_mem _ he3)

/-- **C9**: once the budget has expired, the policy's move choice is the
action of the root child with the maximal visit count, where the chosen
child is the *first* one attaining that maximum (every earlier child is
strictly less visited); with no root children it falls back to the legal
actions of the input position, indexed uniformly by the random draw (and is
only defined when that list is non-empty). -/
theorem C9_policy_return (root : NodeT) (pos : State) (k : ℕ) :
    (∀ (c : NodeT) (cs : List NodeT), root.children = c :: cs →
      policyMoveChoice root pos k = (maxVisits c cs).action
        ∧ firstMaxVisits (c :: cs) (maxVisits c cs))
    ∧ (root.children = [] → ∀ (a : Move) (as : List Move), get_actions pos = a :: as →
        policyMoveChoice root pos k = some ((a :: as).getD (k % (a :: as).length) a)) := by
  constructor
  · intro c cs hch
    refine ⟨?_, maxVisits_firstMax cs c⟩
    unfold policyMoveChoice
    rw [hch]
  · intro hch a as hact
    unfold policyMoveChoice
    rw [hch, hact]

/-- **C9** (witness): at a concrete root with children of 1 and 2 visits,
the policy returns the most-visited child's action and that child satisfies
the first-maximum property. -/
theorem C9_policy_return_witness :
    policyMoveChoice exNode sStuck 0 = (maxVisits exChildA [exChildB]).action
      ∧ firstMaxVisits [exChildA, exChildB] (maxVisits exChildA [exChildB]) :=
  (C9_policy_return exNode sStuck 0).1 exChildA [exChildB] rfl

theorem rolloutGo_terminal (h : PredHist) (f : ℕ) (s : State) (ρ : ℕ → StepR)
    (hs : is_terminal s = true) : rolloutGo h f s ρ = s := by
  cases f with
  | zero => rfl
  | succ f2 => simp [rolloutGo, hs]

theorem mctsIter_terminal (rf sf : ℕ) (s : State) (hs : is_terminal s = true)
    (ch : List NodeT) (v : ℚ) (vis : ℕ) (rem : List Move) (a : Option Move)
    (r : IterR) (h : PredHist) :
    mctsIter rf sf (.mk s ch v vis rem a) r h
      = (.mk s ch (v + (s.score : ℚ)) (vis + 1) rem a, (s.score : ℚ),
         histUpdate h (s.score : ℚ)) := by
  have hstop : mctsStop rf (.mk s ch v vis rem a) r h
      = (.mk s ch (v + (s.score : ℚ)) (vis + 1) rem a, (s.score : ℚ),
         histUpdate h (s.score : ℚ)) := by
    simp [mctsStop, NodeT.state, NodeT.children, NodeT.value, NodeT.visits,
      NodeT.remaining, NodeT.action, hs, rolloutRes, rolloutGo_terminal _ _ _ _ hs]
  cases sf with
  | zero => rw [mctsIter, hstop]
  | succ sf2 =>
    rw [mctsIter]
    rw [if_pos (Or.inr (by simpa [NodeT.state] using hs))]
    exact hstop

theorem mctsLoop_terminal (rf sf k : ℕ) (s : State) (hs : is_terminal s = true)
    (a : Option Move) (ρ : ℕ → IterR) :
    ∀ (v : ℚ) (vis : ℕ) (h : PredHist), ∃ v2 h2,
      mctsLoop rf sf k (.mk s [] v vis [] a) ρ h = (.mk s [] v2 (vis + k) [] a, h2) := by
  induction k with
  | zero => exact fun v vis h => ⟨v, h, by simp [mctsLoop]⟩
  | succ k2 ih =>
    intro v vis h
    rw [mctsLoop]
    rw [mctsIter_terminal rf sf s hs [] v vis [] a (ρ k2) h]
    obtain ⟨v2, h2, heq⟩ := ih (v + (s.score : ℚ)) (vis + 1) (histUpdate h (s.score : ℚ))
    refine ⟨v2, h2, ?_⟩
    have harith : vis + 1 + k2 = vis + (k2 + 1) := by omega
    rw [harith] at heq
    exact heq

/-- **C10**: invoking the MCTS policy on a state that is already terminal
with no legal action never yields an action: the root's untried-action list
is initialised empty, no iteration ever adds a child, and the final
fallback draws from the empty legal-action list, so the move choice is
`none` (in the program, `random.choice([])` raises instead of returning). -/
theorem C10_terminal_policy (s : State) (hact : get_actions s = [])
    (rf sf k j : ℕ) (ρ : ℕ → IterR) (h : PredHist) :
    (mctsLoop rf sf k (NodeT.init s none) ρ h).1.children = []
    ∧ policyMoveChoice (mctsLoop rf sf k (NodeT.init s none) ρ h).1 s j = none := by
  have hs := actions_empty_is_terminal s hact
  have hinit : NodeT.init s none = .mk s [] 0 0 [] none := by simp [NodeT.init, hs]
  obtain ⟨v2, h2, heq⟩ := mctsLoop_terminal rf sf k s hs none ρ 0 0 h
  rw [hinit, heq]
  exact ⟨rfl, by simp [policyMoveChoice, NodeT.children, hact]⟩

/-- **C10** (witness): the theorem applied to a concrete stuck state, three
search iterations and concrete random draws. -/
theorem C10_terminal_policy_witness :
    (mctsLoop 2 2 3 (NodeT.init sStuck none)
        (fun _ => ⟨⟨0, true⟩, fun _ => ⟨fun _ => 0, 0, ⟨0, true⟩⟩⟩) ⟨1, 1, 1, 1⟩).1.children = []
    ∧ policyMoveChoice (mctsLoop 2 2 3 (NodeT.init sStuck none)
        (fun _ => ⟨⟨0, true⟩, fun _ => ⟨fun _ => 0, 0, ⟨0, true⟩⟩⟩) ⟨1, 1, 1, 1⟩).1 sStuck 0 = none :=
  C10_terminal_policy sStuck (by decide) 2 2 3 0
    (fun _ => ⟨⟨0, true⟩, fun _ => ⟨fun _ => 0, 0, ⟨0, true⟩⟩⟩) ⟨1, 1, 1, 1⟩

theorem log_four : Real.log 4 = 2 * Real.log 2 := by
  rw [show (4 : ℝ) = 2 ^ 2 by norm_num, Real.log_pow]
  push_cast
  ring

theorem ucbA_eq (c : ℝ) : ucbWeight 3 c exChildA
    = ((Real.sqrt (c * (2 * Real.log 2)) : ℝ) : WithTop ℝ) := by
  rw [ucbWeight, if_neg (by decide)]
  norm_num [exChildA, NodeT.visits, NodeT.value, log_four]

theorem ucbB_eq (c : ℝ) : ucbWeight 3 c exChildB
    = (((3 / 5 : ℝ) + Real.sqrt (c * (2 * Real.log 2) / 2) : ℝ) : WithTop ℝ) := by
  rw [ucbWeight, if_neg (by decide)]
  norm_num [exChildB, NodeT.visits, NodeT.value, log_four]

theorem ucb_lt_lowc : ucbWeight 3 (3 / 2) exChildA < ucbWeight 3 (3 / 2) exChildB := by
  rw [ucbA_eq, ucbB_eq, WithTop.coe_lt_coe]
  have hL1 := Real.log_two_gt_d9
  have hL2 := Real.log_two_lt_d9
  have h1 : Real.sqrt ((3 / 2) * (2 * Real.log 2)) < 1.4421 := by
    have hnn : (0 : ℝ) ≤ (3 / 2) * (2 * Real.log 2) := by nlinarith
    have hlt : (3 / 2) * (2 * Real.log 2) < (1.4421 : ℝ) ^ 2 := by nlinarith
    calc Real.sqrt ((3 / 2) * (2 * Real.log 2))
        < Real.sqrt ((1.4421 : ℝ) ^ 2) := Real.sqrt_lt_sqrt hnn hlt
      _ = 1.4421 := Real.sqrt_sq (by norm_num)
  have h2 : (1.0196 : ℝ) < Real.sqrt ((3 / 2) * (2 * Real.log 2) / 2) := by
    have hlt : ((1.0196 : ℝ)) ^ 2 < (3 / 2) * (2 * Real.log 2) / 2 := by nlinarith
    calc (1.0196 : ℝ) = Real.sqrt ((1.0196 : ℝ) ^ 2) := (Real.sqrt_sq (by norm_num)).symm
      _ < Real.sqrt ((3 / 2) * (2 * Real.log 2) / 2) :=
        Real.sqrt_lt_sqrt (by norm_num) hlt
  linarith

theorem ucb_lt_highc : ucbWeight 3 50 exChildB < ucbWeight 3 50 exChildA := by
  rw [ucbA_eq, ucbB_eq, WithTop.coe_lt_coe]
  have hL1 := Real.log_two_gt_d9
  have hL2 := Real.log_two_lt_d9
  have h1 : Real.sqrt (50 * (2 * Real.log 2) / 2) < 5.8875 := by
    have hnn : (0 : ℝ) ≤ 50 * (2 * Real.log 2) / 2 := by nlinarith
    have hlt : 50 * (2 * Real.log 2) / 2 < (5.8875 : ℝ) ^ 2 := by nlinarith
    calc Real.sqrt (50 * (2 * Real.log 2) / 2)
        < Real.sqrt ((5.8875 : ℝ) ^ 2) := Real.sqrt_lt_sqrt hnn hlt
      _ = 5.8875 := Real.sqrt_sq (by norm_num)
  have h2 : (8.32 : ℝ) < Real.sqrt (50 * (2 * Real.log 2)) := by
    have hlt : ((8.32 : ℝ)) ^ 2 < 50 * (2 * Real.log 2) := by nlinarith
    calc (8.32 : ℝ) = Real.sqrt ((8.32 : ℝ) ^ 2) := (Real.sqrt_sq (by norm_num)).symm
      _ < Real.sqrt (50 * (2 * Real.log 2)) := Real.sqrt_lt_sqrt (by norm_num) hlt
  linarith

theorem idxOfMax_pair_lt {a b : WithTop ℝ} (h : a < b) : idxOfMax [a, b] = 1 := by
  unfold idxOfMax idxOfMaxAux
  rw [if_pos h]
  simp [idxOfMaxAux]

theorem idxOfMax_pair_not_lt {a b : WithTop ℝ} (h : ¬ a < b) : idxOfMax [a, b] = 0 := by
  unfold idxOfMax idxOfMaxAux
  rw [if_neg h]
  simp [idxOfMaxAux]

theorem select_child_exNode : select_child exNode = some exChildB := by
  unfold select_child best_child
  have hmap : exNode.children.map (ucbWeight exNode.visits (3 / 2))
      = [ucbWeight 3 (3 / 2) exChildA, ucbWeight 3 (3 / 2) exChildB] := by
    simp [exNode, NodeT.children, NodeT.visits]
  rw [hmap, idxOfMax_pair_lt ucb_lt_lowc]
  simp [exNode, NodeT.children]

theorem best_child_exNode_50 : best_child exNode 50 = some exChildA := by
  unfold best_child
  have hmap : exNode.children.map (ucbWeight exNode.visits 50)
      = [ucbWeight 3 50 exChildA, ucbWeight 3 50 exChildB] := by
    simp [exNode, NodeT.children, NodeT.visits]
  rw [hmap, idxOfMax_pair_not_lt (not_lt.mpr (le_of_lt ucb_lt_highc))]
  simp [exNode, NodeT.children]

/-- **C3** (counterexample).  The MCTS factory `mcts_policy(time_limit=1.0)`
accepts no exploration constant; `select` always calls `best_child()` with
the default `c = 1.5`.  So the policy's selection step does *not* use a
supplied exploration constant: at the concrete node `exNode` it picks a
different child than UCB1 with a supplied constant `c = 50` would. -/
theorem C3_counterexample : select_child exNode ≠ best_child exNode 50 := by
  rw [select_child_exNode, best_child_exNode_50]
  intro hcontra
  have h2 := congrArg NodeT.visits (Option.some.inj hcontra)
  simp [exChildA, exChildB, NodeT.visits] at h2

/-- **C3** (amended).  The MCTS entry point is a factory taking only a
per-move time budget; the UCB1 child-selection rule during search uses the
fixed default exploration constant 1.5: the selection step equals
`best_child` at `c = 3/2`, and for every visited child the weight is
`value/visits + sqrt(1.5 · ln(parent_visits + 1) / visits)`. -/
theorem C3_amended :
    (∀ n : NodeT, select_child n = best_child n (3 / 2))
    ∧ ∀ (pv : ℕ) (ch : NodeT), ch.visits ≠ 0 →
        ucbWeight pv (3 / 2) ch
          = (((ch.value / (ch.visits : ℚ) : ℚ) : ℝ)
            + Real.sqrt ((3 / 2) * Real.log ((pv : ℝ) + 1) / (ch.visits : ℝ)) : ℝ) :=
  ⟨fun _ => rfl, fun _ ch h => by rw [ucbWeight, if_neg h]⟩

/-- **C3** (witness): the amended theorem applied at the concrete node and
its visited child. -/
theorem C3_amended_witness :
    select_child exNode = best_child exNode (3 / 2)
    ∧ ucbWeight 3 (3 / 2) exChildB
        = (((exChildB.value / (exChildB.visits : ℚ) : ℚ) : ℝ)
          + Real.sqrt ((3 / 2) * Real.log (((3 : ℕ) : ℝ) + 1) / (exChildB.visits : ℝ)) : ℝ) :=
  ⟨C3_amended.1 exNode, C3_amended.2 3 exChildB (by decide)⟩
